import Mathlib

/-!
Verification of the tool-dispatch and orchestration subsystem of the
`rusty-tools` interactive assistant: the tool registry, the pipeline
interpreter with `${stepId}` placeholder substitution, the tool-call
handling of the orchestration loop, conversation persistence, and the
console command handler.

Rust `serde_json::Value` values are embedded as the inductive `Json`;
Rust machine strings as Lean `String` (a list of characters); the
`HashMap`/`serde_json::Map` containers as association lists with the
corresponding insert semantics.  JSON text rendering and parsing done by
the external `serde_json` crate is modelled at the level of the `Json`
syntax tree.  Fallible Rust functions returning `Result<T, AppError>`
become Lean functions into `Except AppError T`.
-/

/-- Embedding of `serde_json::Value` (src/src/tools/pipeline_tool.rs uses it
as `JsonValue`).  JSON numbers pass through the code under study opaquely
(only cloned, never inspected), so they are represented by an integer
payload; objects keep their fields as an ordered association list. -/
inductive Json where
  | null : Json
  | bool (b : Bool) : Json
  | num (n : Int) : Json
  | str (s : String) : Json
  | arr (elems : List Json) : Json
  | obj (fields : List (String × Json)) : Json
deriving Repr

/-- Embedding of `AppError` from src/src/types.rs.  Error payloads that are
foreign error values in Rust (`reqwest::Error`, `std::io::Error`, ...) are
carried as their display strings. -/
inductive AppError where
  | ReqwestError (msg : String)
  | IOError (msg : String)
  | SerdeJsonError (msg : String)
  | TaskJoinError (msg : String)
  | MissingEnvironmentVariable (msg : String)
  | CommandError (msg : String)
deriving Repr, DecidableEq

/-- Embedding of `impl fmt::Display for AppError` (src/src/types.rs,
lines 75-88); `e.to_string()` in Rust renders through this instance. -/
def AppError.toDisplayString : AppError → String
  | .ReqwestError e => "HTTP request failed: " ++ e
  | .IOError e => "IO error: " ++ e
  | .SerdeJsonError e => "Serialization/Deserialization error: " ++ e
  | .TaskJoinError e => "TaskJoinError: " ++ e
  | .MissingEnvironmentVariable e => "Missing environment variable: " ++ e
  | .CommandError e => "Error with command: " ++ e

/-- Lookup in an association list, as `serde_json::Map::get` /
`HashMap::get` observe it (first binding for the key). -/
def mapLookup (k : String) : List (String × Json) → Option Json
  | [] => none
  | kv :: rest => if kv.1 = k then some kv.2 else mapLookup k rest

/-- Insertion into the ordered map backing `serde_json::Map` (a `BTreeMap`
keyed by strings): replaces the binding when the key is already present,
otherwise places the new binding at its sorted position. -/
def mapInsert (k : String) (v : Json) : List (String × Json) → List (String × Json)
  | [] => [(k, v)]
  | kv :: rest =>
    if k = kv.1 then (k, v) :: rest
    else if k < kv.1 then (k, v) :: kv :: rest
    else kv :: mapInsert k v rest

/-- Rust `str::replace` on character lists: replace every non-overlapping
occurrence of `pat`, scanning left to right; an empty pattern matches at
every character boundary. -/
def replaceAll (s pat rep : List Char) : List Char :=
  match s with
  | [] => if pat = [] then rep else []
  | c :: rest =>
    if h : pat ≠ [] ∧ pat.isPrefixOf (c :: rest) then
      rep ++ replaceAll ((c :: rest).drop pat.length) pat rep
    else if pat = [] then
      rep ++ c :: replaceAll rest pat rep
    else
      c :: replaceAll rest pat rep
termination_by s.length
decreasing_by
  · have hp : 0 < pat.length := List.length_pos.mpr h.1
    simp only [List.length_drop, List.length_cons]
    omega
  all_goals simp only [List.length_cons]; omega

/-- Rust `String::replace` lifted to `String`. -/
def strReplace (s pat rep : String) : String :=
  ⟨replaceAll s.data pat.data rep.data⟩

/-- The placeholder text `format!("${{{}}}", key)` built in
`PipelineTool::substitute_placeholders`. -/
def placeholderFor (key : String) : String := "$\x7b" ++ key ++ "\x7d"

/-- Embedding of `PipelineTool::substitute_placeholders`
(src/src/tools/pipeline_tool.rs, lines 21-33): when the context is a JSON
object, fold over its entries in order, replacing every occurrence of
`${key}` by the entry's value whenever that value is a string; non-object
contexts and non-string entries leave the text unchanged. -/
def substitutePlaceholders (value : String) (context : Json) : String :=
  match context with
  | .obj contextMap =>
    contextMap.foldl
      (fun result kv =>
        match kv.2 with
        | .str rep => strReplace result (placeholderFor kv.1) rep
        | _ => result)
      value
  | _ => value

mutual
/-- Embedding of `PipelineTool::resolve_parameters`
(src/src/tools/pipeline_tool.rs, lines 36-53): objects resolve each value
recursively (keys untouched), arrays resolve each element, strings go
through placeholder substitution, all other values are cloned unchanged. -/
def resolveParameters (params : Json) (context : Json) : Json :=
  match params with
  | .obj map => .obj (resolveFields map context)
  | .arr vec => .arr (resolveElems vec context)
  | .str s => .str (substitutePlaceholders s context)
  | other => other

/-- The field-wise recursion of `resolve_parameters` over a JSON object. -/
def resolveFields (fields : List (String × Json)) (context : Json) :
    List (String × Json) :=
  match fields with
  | [] => []
  | (k, v) :: rest => (k, resolveParameters v context) :: resolveFields rest context

/-- The element-wise recursion of `resolve_parameters` over a JSON array. -/
def resolveElems (elems : List Json) (context : Json) : List Json :=
  match elems with
  | [] => []
  | v :: rest => resolveParameters v context :: resolveElems rest context
end

/-- A pipeline step (src/src/tools/pipeline_tool.rs, lines 12-17) with its
`parameters` carried as the already-parsed JSON value of the `RawValue`
payload (the per-step `serde_json::from_str` of lines 87-88 fails only on
malformed raw text, which the steps of interest never contain). -/
structure PipelineStep where
  id : String
  tool : String
  parameters : Json

/-- The step loop of `PipelineTool::execute`
(src/src/tools/pipeline_tool.rs, lines 83-108), parameterized by the
registry dispatch `exec` (the `GLOBAL_TOOL_REGISTRY.execute_tool` call):
resolve the step's parameters against the current context, invoke the
tool, and on success record the output string under the step id; any
error aborts the loop and is propagated by `?`.  The serialize/reparse
round trip of lines 95-104 (`to_string` then `from_str`) is the identity
on the JSON tree and is modelled as such. -/
def runSteps (exec : String → Json → Except AppError String) :
    List PipelineStep → List (String × Json) → Except AppError (List (String × Json))
  | [], context => .ok context
  | step :: rest, context =>
    match exec step.tool (resolveParameters step.parameters (.obj context)) with
    | .error e => .error e
    | .ok output => runSteps exec rest (mapInsert step.id (.str output) context)

/-- The sequence of registry invocations `(tool, resolved arguments)` that
the step loop of `PipelineTool::execute` actually performs: each step is
invoked once, and a failing invocation is the last one. -/
def invokedCalls (exec : String → Json → Except AppError String) :
    List PipelineStep → List (String × Json) → List (String × Json)
  | [], _ => []
  | step :: rest, context =>
    let resolved := resolveParameters step.parameters (.obj context)
    (step.tool, resolved) ::
      match exec step.tool resolved with
      | .error _ => []
      | .ok output => invokedCalls exec rest (mapInsert step.id (.str output) context)

/-- Embedding of `PipelineTool::execute` past argument decoding
(src/src/tools/pipeline_tool.rs, lines 81-110): run the steps with an
initially empty context and return the context as one JSON object. -/
def pipelineExecute (exec : String → Json → Except AppError String)
    (steps : List PipelineStep) : Except AppError Json :=
  match runSteps exec steps [] with
  | .error e => .error e
  | .ok context => .ok (.obj context)

/-- A registered tool as the registry sees it (the `Tool` trait of
src/src/models/traits.rs): a name, a description, a parameter schema and
an execute operation. -/
structure ToolDef where
  name : String
  description : String
  parameters : Json
  execute : Json → Except AppError String

/-- The tool table of `ToolRegistry` (src/src/registry/tool_registry.rs):
a `HashMap<String, Box<dyn Tool>>`, embedded as an association list with
`HashMap::insert` replacement semantics. -/
def Registry := List (String × ToolDef)

/-- `HashMap::get` on the embedded tool table. -/
def regLookup (k : String) : List (String × ToolDef) → Option ToolDef
  | [] => none
  | kv :: rest => if kv.1 = k then some kv.2 else regLookup k rest

/-- `HashMap::insert`: replace the binding when the key is present,
otherwise add a new binding. -/
def hmInsert (k : String) (t : ToolDef) :
    List (String × ToolDef) → List (String × ToolDef)
  | [] => [(k, t)]
  | kv :: rest => if kv.1 = k then (k, t) :: rest else kv :: hmInsert k t rest

/-- Embedding of `ToolRegistry::register`
(src/src/registry/tool_registry.rs, lines 17-19):
`self.tools.insert(tool.name().to_string(), Box::new(tool))`. -/
def registerTool (t : ToolDef) (reg : List (String × ToolDef)) :
    List (String × ToolDef) :=
  hmInsert t.name t reg

/-- Embedding of `ToolRegistry::execute_tool`
(src/src/registry/tool_registry.rs, lines 50-59): look the name up; when
present delegate to the tool's execute, otherwise fail with the
`` Tool `name` not found `` command error. -/
def executeTool (reg : List (String × ToolDef)) (toolName : String)
    (args : Json) : Except AppError String :=
  match regLookup toolName reg with
  | some tool => tool.execute args
  | none => .error (.CommandError ("Tool `" ++ toolName ++ "` not found"))

/-- Embedding of `ToolRegistry::list_tools`
(src/src/registry/tool_registry.rs, lines 61-67); `HashMap::values`
iteration order is unspecified in Rust and is modelled as the list
order of the embedded table. -/
def listToolsDescription (reg : List (String × ToolDef)) : String :=
  reg.foldl (fun acc kv => acc ++ kv.2.name ++ " - " ++ kv.2.description ++ "\n")
    "Available Tools:\n\n"

/-- Embedding of `FunctionCall` from src/src/types.rs. -/
structure FunctionCall where
  name : String
  arguments : String
deriving Repr, DecidableEq

/-- Embedding of `ToolCall` from src/src/types.rs (`r#type` is the field
serialized as `"type"`). -/
structure ToolCall where
  id : String
  type : String
  function : FunctionCall
deriving Repr, DecidableEq

/-- Embedding of `Message` from src/src/types.rs. -/
structure Message where
  role : String
  content : Option String
  tool_calls : Option (List ToolCall)
  tool_call_id : Option String
  name : Option String
deriving Repr, DecidableEq

/-- `Message::new` (src/src/types.rs, lines 53-63). -/
def Message.new (role content : String) : Message :=
  { role := role, content := some content,
    tool_calls := none, tool_call_id := none, name := none }

/-- Rust's `char::escape_debug` on the characters occurring in this
development: quote, backslash and the common control characters are
escaped, all other characters print as themselves. -/
def rustDebugEscapeChar (c : Char) : String :=
  if c = '"' then "\\\""
  else if c = '\\' then "\\\\"
  else if c = '\n' then "\\n"
  else if c = '\t' then "\\t"
  else if c = '\r' then "\\r"
  else String.singleton c

/-- The `{:?}` rendering of a Rust `String` value: the escaped text in
double quotes. -/
def rustDebugStr (s : String) : String :=
  "\"" ++ String.join (s.data.map rustDebugEscapeChar) ++ "\""

/-- The derived `{:?}` rendering of a `FunctionCall`. -/
def rustDebugFunctionCall (fc : FunctionCall) : String :=
  "FunctionCall \x7b name: " ++ rustDebugStr fc.name ++
    ", arguments: " ++ rustDebugStr fc.arguments ++ " \x7d"

/-- The derived `{:?}` rendering of a `ToolCall` (the raw identifier
`r#type` prints as `type`). -/
def rustDebugToolCall (tc : ToolCall) : String :=
  "ToolCall \x7b id: " ++ rustDebugStr tc.id ++
    ", type: " ++ rustDebugStr tc.type ++
    ", function: " ++ rustDebugFunctionCall tc.function ++ " \x7d"

/-- Embedding of `Assistant::handle_tool_call` (src/src/assistant/mod.rs,
lines 64-106).  The `serde_json::from_str` of the call's argument text
(line 67) is passed in as `parsedArgs`; its failure propagates out through
`?` before the approval gate.  The console approval answer is the input
`approve`.  On approval the registry is consulted and the output or the
`Display` form of the error becomes the tool result; on rejection the
registry is not consulted and the rejection text built from the call's
`{:?}` rendering becomes the tool result.  Either way one tool-role
message carrying the call's id and function name is appended. -/
def handleToolCall (reg : List (String × ToolDef)) (approve : Bool)
    (tc : ToolCall) (parsedArgs : Except AppError Json)
    (msgs : List Message) : Except AppError (List Message) :=
  match parsedArgs with
  | .error e => .error e
  | .ok args =>
    let toolResult :=
      if approve then
        match executeTool reg tc.function.name args with
        | .ok result => result
        | .error e => e.toDisplayString
      else
        "User rejected tool call: " ++ rustDebugToolCall tc
    .ok (msgs ++ [{ role := "tool", content := some toolResult,
                    tool_calls := none, tool_call_id := some tc.id,
                    name := some tc.function.name }])

/-- The tool-call phase of one iteration of `Assistant::run`
(src/src/assistant/mod.rs, lines 122-126): the calls of the assistant
message are handled strictly in order, one at a time, each with its
console approval answer and the parse result of its argument text; a
`handle_tool_call` error aborts the loop through `?`.  Only after this
phase returns does `run` issue the follow-up completion request. -/
def handleToolCalls (reg : List (String × ToolDef)) :
    List (ToolCall × Bool × Except AppError Json) → List Message →
    Except AppError (List Message)
  | [], msgs => .ok msgs
  | (tc, approve, parsedArgs) :: rest, msgs =>
    match handleToolCall reg approve tc parsedArgs msgs with
    | .error e => .error e
    | .ok msgs' => handleToolCalls reg rest msgs'

/-- The serde serialization of a `FunctionCall` to a JSON tree. -/
def functionCallToJson (fc : FunctionCall) : Json :=
  .obj [("name", .str fc.name), ("arguments", .str fc.arguments)]

/-- The serde serialization of a `ToolCall` to a JSON tree (`r#type` is
renamed to `"type"` by its serde attribute). -/
def toolCallToJson (tc : ToolCall) : Json :=
  .obj [("id", .str tc.id), ("type", .str tc.type),
        ("function", functionCallToJson tc.function)]

/-- The serde serialization of a `Message` to a JSON tree: fields in
declaration order, each optional field skipped when `None`
(`skip_serializing_if = "Option::is_none"` in src/src/types.rs). -/
def messageToJson (m : Message) : Json :=
  .obj ([("role", .str m.role)]
    ++ (match m.content with
        | some c => [("content", .str c)]
        | none => [])
    ++ (match m.tool_calls with
        | some tcs => [("tool_calls", .arr (tcs.map toolCallToJson))]
        | none => [])
    ++ (match m.tool_call_id with
        | some i => [("tool_call_id", .str i)]
        | none => [])
    ++ (match m.name with
        | some n => [("name", .str n)]
        | none => []))

/-- Element-wise decoding of a JSON array, failing when any element
fails (serde's sequence deserialization). -/
def jsonListDecode (f : Json → Option α) : List Json → Option (List α)
  | [] => some []
  | x :: xs =>
    match f x, jsonListDecode f xs with
    | some a, some rest => some (a :: rest)
    | _, _ => none

/-- The serde deserialization of a `FunctionCall` from a JSON tree. -/
def functionCallFromJson (j : Json) : Option FunctionCall :=
  match j with
  | .obj fields =>
    match mapLookup "name" fields, mapLookup "arguments" fields with
    | some (.str n), some (.str a) => some { name := n, arguments := a }
    | _, _ => none
  | _ => none

/-- The serde deserialization of a `ToolCall` from a JSON tree. -/
def toolCallFromJson (j : Json) : Option ToolCall :=
  match j with
  | .obj fields =>
    match mapLookup "id" fields, mapLookup "type" fields,
        mapLookup "function" fields with
    | some (.str i), some (.str t), some fj =>
      match functionCallFromJson fj with
      | some fc => some { id := i, type := t, function := fc }
      | none => none
    | _, _, _ => none
  | _ => none

/-- Decoding of an optional string field: an absent field is `None`
(serde treats `Option` fields as implicitly optional), a present
non-string field is a deserialization error. -/
def optStrField (fields : List (String × Json)) (k : String) :
    Option (Option String) :=
  match mapLookup k fields with
  | none => some none
  | some (.str s) => some (some s)
  | some _ => none

/-- The serde deserialization of a `Message` from a JSON tree. -/
def messageFromJson (j : Json) : Option Message :=
  match j with
  | .obj fields =>
    match mapLookup "role" fields with
    | some (.str role) =>
      match optStrField fields "content",
          (match mapLookup "tool_calls" fields with
           | none => some none
           | some (.arr l) => (jsonListDecode toolCallFromJson l).map some
           | some _ => none),
          optStrField fields "tool_call_id", optStrField fields "name" with
      | some content, some tcs, some tcid, some nm =>
        some { role := role, content := content, tool_calls := tcs,
               tool_call_id := tcid, name := nm }
      | _, _, _, _ => none
    | _ => none
  | _ => none

/-- `serde_json::to_string(&self.messages)` at the JSON-tree level. -/
def messagesToJson (msgs : List Message) : Json :=
  .arr (msgs.map messageToJson)

/-- `serde_json::from_str::<Vec<Message>>` at the JSON-tree level. -/
def messagesFromJson (j : Json) : Option (List Message) :=
  match j with
  | .arr l => jsonListDecode messageFromJson l
  | _ => none

/-- The conversation-owning state of `ConversationManager`
(src/src/assistant/conversation_manager.rs): the in-memory message list
and the current conversation id. -/
structure ConvState where
  messages : List Message
  conversation_id : String
deriving Repr, DecidableEq

/-- The path `format!("conversations/{}.json", id)`. -/
def conversationPath (id : String) : String :=
  "conversations/" ++ id ++ ".json"

/-- Embedding of `ConversationManager::add_message`
(src/src/assistant/conversation_manager.rs, lines 32-50) over an abstract
file store mapping paths to parsed JSON file contents: push the message
and rewrite the whole conversation file with the serialization of the
full message list. -/
def addMessage (cm : ConvState) (fs : String → Option Json) (m : Message) :
    ConvState × (String → Option Json) :=
  let msgs := cm.messages ++ [m]
  ({ messages := msgs, conversation_id := cm.conversation_id },
   fun path =>
     if path = conversationPath cm.conversation_id then
       some (messagesToJson msgs)
     else fs path)

/-- Embedding of `ConversationManager::load_conversation`
(src/src/assistant/conversation_manager.rs, lines 79-92): read the file
(an absent file is the propagated `IOError`), deserialize the message
list (failure is the propagated serde error), and replace both the
in-memory messages and the conversation id. -/
def loadConversation (fs : String → Option Json) (id : String) :
    Except AppError ConvState :=
  match fs (conversationPath id) with
  | none => .error (.IOError "No such file or directory (os error 2)")
  | some content =>
    match messagesFromJson content with
    | none => .error (.SerdeJsonError "invalid conversation file")
    | some msgs => .ok { messages := msgs, conversation_id := id }

/-- Embedding of the console `Command` enum
(src/src/assistant/command_handler.rs, lines 9-14). -/
inductive Command where
  | exit : Command
  | listTools : Command
  | loadConversation (id : String) : Command
  | prompt (text : String) : Command
deriving Repr, DecidableEq

/-- `char::is_whitespace` restricted to the ASCII whitespace characters
(the console inputs of interest contain no further Unicode
White_Space code points). -/
def isRustWhitespace (c : Char) : Bool :=
  c == ' ' || c == '\t' || c == '\n' || c == '\r' || c == '\x0b' || c == '\x0c'

/-- Rust `str::trim` (on the character set above). -/
def trimString (s : String) : String :=
  ⟨((s.data.dropWhile isRustWhitespace).reverse.dropWhile
      isRustWhitespace).reverse⟩

/-- `char::to_ascii_lowercase`. -/
def asciiLowerChar (c : Char) : Char :=
  if 'A' ≤ c ∧ c ≤ 'Z' then Char.ofNat (c.toNat + 32) else c

/-- `str::eq_ignore_ascii_case`. -/
def eqIgnoreAsciiCase (a b : String) : Bool :=
  a.data.map asciiLowerChar == b.data.map asciiLowerChar

/-- `str::splitn(2, ' ')` collected into a vector: one part when the text
holds no space, otherwise the text before the first space and everything
after it. -/
def splitnTwoAtSpace (l : List Char) : List (List Char) :=
  let before := l.takeWhile (fun c => !(c == ' '))
  if before.length = l.length then [l]
  else [before, l.drop (before.length + 1)]

/-- Embedding of `CommandHandler::read_user_command`
(src/src/assistant/command_handler.rs, lines 19-40), applied to one raw
input line: trim it; `exit`/`quit` (ASCII-case-insensitively) is the exit
command; `list tools` likewise lists tools; an input whose lowercased form
starts with `load` is split at the first space into a load command, a
malformed one (no second part) is a command error; everything else is a
user prompt carrying the trimmed text.  Rust's Unicode `to_lowercase` is
modelled by ASCII lowering, which agrees with it on the inputs of
interest. -/
def readUserCommand (rawLine : String) : Except AppError Command :=
  let input := trimString rawLine
  if eqIgnoreAsciiCase input "exit" || eqIgnoreAsciiCase input "quit" then
    .ok .exit
  else if eqIgnoreAsciiCase input "list tools" then
    .ok .listTools
  else if "load".data.isPrefixOf (input.data.map asciiLowerChar) then
    match splitnTwoAtSpace input.data with
    | [_, second] => .ok (.loadConversation ⟨second⟩)
    | _ => .error (.CommandError "Invalid load command")
  else
    .ok (.prompt input)

/-- The observable outcome of `CommandHandler::get_user_prompt`
(src/src/assistant/command_handler.rs, lines 42-71) on a finite queue of
input lines. -/
inductive PromptOutcome where
  | exited : PromptOutcome
  | fatal (e : AppError) : PromptOutcome
  | prompted (cm : ConvState) (fs : String → Option Json) : PromptOutcome
  | outOfInput (cm : ConvState) (fs : String → Option Json) : PromptOutcome

/-- Embedding of the `get_user_prompt` loop: read commands until a prompt
is obtained.  A command parse error is logged and the loop continues; exit
terminates the process; list-tools prints the registry description and
continues; a load command replaces the in-memory conversation (its
failure propagates out through `?` as a fatal error) and continues; a
prompt appends a user message (persisting it) and returns.  The second
component collects the console lines printed for list-tools and
successful loads. -/
def getUserPrompt (reg : List (String × ToolDef)) :
    List String → ConvState → (String → Option Json) →
    PromptOutcome × List String
  | [], cm, fs => (.outOfInput cm fs, [])
  | line :: rest, cm, fs =>
    match readUserCommand line with
    | .error _ => getUserPrompt reg rest cm fs
    | .ok .exit => (.exited, [])
    | .ok .listTools =>
      let (outcome, printed) := getUserPrompt reg rest cm fs
      (outcome, listToolsDescription reg :: printed)
    | .ok (.loadConversation id) =>
      match loadConversation fs id with
      | .error e => (.fatal e, [])
      | .ok cm' =>
        let (outcome, printed) := getUserPrompt reg rest cm' fs
        (outcome, ("Successfully loaded conversation " ++ id ++ "\n") :: printed)
    | .ok (.prompt p) =>
      let (cm', fs') := addMessage cm fs (Message.new "user" p)
      (.prompted cm' fs', [])

/-- One occurrence test: does `pat` occur as a contiguous subsequence of
`s`?  (The match test of Rust's `str::replace`, as a Boolean.) -/
def containsSeq (pat : List Char) : List Char → Bool
  | [] => pat.isEmpty
  | c :: rest => pat.isPrefixOf (c :: rest) || containsSeq pat rest

theorem isPrefixOf_append_self (l t : List Char) : l.isPrefixOf (l ++ t) = true := by
  induction l with
  | nil => simp [List.isPrefixOf]
  | cons c cs ih => simp [List.isPrefixOf, ih]

theorem isPrefixOf_cons_of_ne (p c : Char) (pt rest : List Char) (h : p ≠ c) :
    (p :: pt).isPrefixOf (c :: rest) = false := by
  simp [List.isPrefixOf, h]

theorem isPrefixOf_iff_exists (pat l : List Char) :
    pat.isPrefixOf l = true ↔ ∃ t, l = pat ++ t := by
  induction pat generalizing l with
  | nil => simp [List.isPrefixOf]
  | cons p ps ih =>
    cases l with
    | nil => simp [List.isPrefixOf]
    | cons c cs =>
      simp only [List.isPrefixOf, Bool.and_eq_true, beq_iff_eq, ih,
        List.cons_append, List.cons.injEq]
      constructor
      · rintro ⟨rfl, t, rfl⟩
        exact ⟨t, rfl, rfl⟩
      · rintro ⟨t, rfl, rfl⟩
        exact ⟨rfl, t, rfl⟩

theorem replaceAll_cons_of_ne (c p : Char) (rest pt rep : List Char) (h : p ≠ c) :
    replaceAll (c :: rest) (p :: pt) rep = c :: replaceAll rest (p :: pt) rep := by
  rw [replaceAll]
  have h1 : ¬((p :: pt) ≠ [] ∧ (p :: pt).isPrefixOf (c :: rest) = true) := by
    simp [isPrefixOf_cons_of_ne p c pt rest h]
  rw [dif_neg h1, if_neg (by simp : ¬(p :: pt = []))]

theorem replaceAll_append_left (a s pt rep : List Char) (p : Char)
    (h : ∀ c ∈ a, c ≠ p) :
    replaceAll (a ++ s) (p :: pt) rep = a ++ replaceAll s (p :: pt) rep := by
  induction a with
  | nil => rfl
  | cons c cs ih =>
    have hc : p ≠ c := fun he => (h c (by simp)) he.symm
    rw [List.cons_append, replaceAll_cons_of_ne c p (cs ++ s) pt rep hc,
      ih (fun x hx => h x (by simp [hx])), List.cons_append]

theorem replaceAll_append_pat (s pt rep : List Char) (p : Char) :
    replaceAll ((p :: pt) ++ s) (p :: pt) rep = rep ++ replaceAll s (p :: pt) rep := by
  rw [List.cons_append, replaceAll]
  have h1 : (p :: pt) ≠ [] ∧ (p :: pt).isPrefixOf (p :: (pt ++ s)) = true :=
    ⟨by simp, by rw [← List.cons_append]; exact isPrefixOf_append_self _ _⟩
  rw [dif_pos h1]
  congr 1
  rw [← List.cons_append, List.drop_left]

theorem replaceAll_of_not_contains (s pat rep : List Char) (hne : pat ≠ [])
    (h : containsSeq pat s = false) : replaceAll s pat rep = s := by
  induction s with
  | nil => rw [replaceAll, if_neg hne]
  | cons c rest ih =>
    rw [containsSeq, Bool.or_eq_false_iff] at h
    rw [replaceAll, dif_neg (by simp [h.1]), if_neg hne, ih h.2]

theorem containsSeq_eq_true_iff (pat s : List Char) :
    containsSeq pat s = true ↔ ∃ a b, s = a ++ pat ++ b := by
  induction s with
  | nil =>
    simp only [containsSeq, List.isEmpty_iff]
    constructor
    · rintro rfl
      exact ⟨[], [], rfl⟩
    · rintro ⟨a, b, h⟩
      rcases List.append_eq_nil.mp h.symm with ⟨h1, h2⟩
      exact (List.append_eq_nil.mp h1).2
  | cons c rest ih =>
    rw [containsSeq, Bool.or_eq_true, isPrefixOf_iff_exists, ih]
    constructor
    · rintro (⟨t, ht⟩ | ⟨a, b, hab⟩)
      · exact ⟨[], t, by simp [ht]⟩
      · exact ⟨c :: a, b, by simp [hab]⟩
    · rintro ⟨a, b, hab⟩
      cases a with
      | nil => exact Or.inl ⟨b, by simpa using hab⟩
      | cons a0 a' =>
        simp only [List.cons_append] at hab
        obtain ⟨-, h2⟩ := List.cons.inj hab
        exact Or.inr ⟨a', b, h2⟩

theorem placeholderFor_data (k : String) :
    (placeholderFor k).data = '$' :: '{' :: (k.data ++ ['}']) := by
  simp [placeholderFor, String.data_append]

theorem placeholderFor_data_ne_nil (k : String) : (placeholderFor k).data ≠ [] := by
  rw [placeholderFor_data]
  simp


theorem append_brace_cancel (x r y : List Char) (hy : '}' ∉ y)
    (h : x ++ '}' :: r = y ++ ['}']) : x = y ∧ r = [] := by
  induction x generalizing y with
  | nil =>
    cases y with
    | nil => simpa using h
    | cons y0 y' =>
      exfalso
      rw [List.nil_append, List.cons_append] at h
      obtain ⟨h1, -⟩ := List.cons.inj h
      exact hy (by simp [← h1])
  | cons x0 x' ih =>
    cases y with
    | nil =>
      exfalso
      rw [List.cons_append, List.nil_append] at h
      obtain ⟨-, h2⟩ := List.cons.inj h
      exact absurd (List.append_eq_nil.mp h2).2 (by simp)
    | cons y0 y' =>
      rw [List.cons_append, List.cons_append] at h
      obtain ⟨rfl, h2⟩ := List.cons.inj h
      have hrec := ih y' (fun hx => hy (List.mem_cons_of_mem x0 hx)) h2
      exact ⟨by rw [hrec.1], hrec.2⟩

/-- A placeholder `${k}` never occurs inside the placeholder text `${m}`
of a different key `m` whose characters avoid `$`, `{` and `}`. -/
theorem placeholder_not_contains (k m : String)
    (hm : ∀ c ∈ m.data, c ≠ '$' ∧ c ≠ '{' ∧ c ≠ '}') (hne : k ≠ m) :
    containsSeq (placeholderFor k).data (placeholderFor m).data = false := by
  by_contra hcon
  rw [Bool.not_eq_false, containsSeq_eq_true_iff] at hcon
  obtain ⟨a, b, heq⟩ := hcon
  rw [placeholderFor_data, placeholderFor_data] at heq
  cases a with
  | cons a0 a' =>
    rw [List.cons_append, List.cons_append] at heq
    obtain ⟨h0, heq'⟩ := List.cons.inj heq
    cases a' with
    | nil =>
      rw [List.nil_append, List.cons_append] at heq'
      obtain ⟨h1, -⟩ := List.cons.inj heq'
      exact absurd h1 (by simp)
    | cons a1 a'' =>
      rw [List.cons_append, List.cons_append] at heq'
      obtain ⟨h1, heq''⟩ := List.cons.inj heq'
      have hdollar : '$' ∈ m.data ++ ['}'] := by
        rw [heq'']
        simp
      rcases List.mem_append.mp hdollar with hin | hin
      · exact (hm _ hin).1 rfl
      · simp at hin
  | nil =>
    rw [List.nil_append, List.cons_append, List.cons_append] at heq
    obtain ⟨-, heq⟩ := List.cons.inj heq
    obtain ⟨-, heq⟩ := List.cons.inj heq
    rw [List.append_assoc, List.singleton_append] at heq
    have hym : '}' ∉ m.data := fun hx => (hm _ hx).2.2 rfl
    have hc := append_brace_cancel k.data b m.data hym heq.symm
    exact hne (String.ext hc.1)

theorem strReplace_data (s pat rep : String) :
    (strReplace s pat rep).data = replaceAll s.data pat.data rep.data := rfl

theorem strReplace_eq_self (s pat rep : String) (hne : pat.data ≠ [])
    (h : containsSeq pat.data s.data = false) : strReplace s pat rep = s :=
  String.ext (replaceAll_of_not_contains s.data pat.data rep.data hne h)

theorem substitutePlaceholders_obj_nil (s : String) :
    substitutePlaceholders s (.obj []) = s := rfl

theorem substitutePlaceholders_obj_cons_str (s k rep : String)
    (rest : List (String × Json)) :
    substitutePlaceholders s (.obj ((k, .str rep) :: rest)) =
      substitutePlaceholders (strReplace s (placeholderFor k) rep) (.obj rest) := rfl

/-- Context entries whose keys' placeholders do not occur in the text
leave the text unchanged (string-valued entries by a vacuous replacement,
other entries because the code skips them). -/
theorem substitutePlaceholders_of_no_occurrence (s : String)
    (ctx : List (String × Json))
    (h : ∀ kv ∈ ctx, ∀ rep, kv.2 = Json.str rep →
      containsSeq (placeholderFor kv.1).data s.data = false) :
    substitutePlaceholders s (.obj ctx) = s := by
  induction ctx with
  | nil => rfl
  | cons kv rest ih =>
    obtain ⟨k, v⟩ := kv
    have hrest : ∀ kv ∈ rest, ∀ rep, kv.2 = Json.str rep →
        containsSeq (placeholderFor kv.1).data s.data = false :=
      fun kv hkv rep hrep => h kv (List.mem_cons_of_mem _ hkv) rep hrep
    cases v with
    | str rep =>
      rw [substitutePlaceholders_obj_cons_str,
        strReplace_eq_self _ _ _ (placeholderFor_data_ne_nil k)
          (h (k, .str rep) (by simp) rep rfl)]
      exact ih hrest
    | null =>
      show substitutePlaceholders s (.obj rest) = s
      exact ih hrest
    | bool b =>
      show substitutePlaceholders s (.obj rest) = s
      exact ih hrest
    | num n =>
      show substitutePlaceholders s (.obj rest) = s
      exact ih hrest
    | arr l =>
      show substitutePlaceholders s (.obj rest) = s
      exact ih hrest
    | obj f =>
      show substitutePlaceholders s (.obj rest) = s
      exact ih hrest

/-- Purely textual substitution of one placeholder occurrence: with a
single-entry context `k ↦ v`, text written as `pre ++ ${k} ++ suf` (with
no `$` in `pre`) resolves to `pre ++ v ++ <suf with its own occurrences
replaced>`, whatever characters (including whitespace and newlines) `v`
contains. -/
theorem substitutePlaceholders_single (k v pre suf : String)
    (hpre : ∀ c ∈ pre.data, c ≠ '$') :
    substitutePlaceholders (pre ++ placeholderFor k ++ suf) (.obj [(k, .str v)])
      = pre ++ v ++ strReplace suf (placeholderFor k) v := by
  rw [substitutePlaceholders_obj_cons_str, substitutePlaceholders_obj_nil]
  apply String.ext
  rw [strReplace_data]
  simp only [String.data_append, strReplace_data]
  rw [List.append_assoc, placeholderFor_data]
  rw [replaceAll_append_left _ _ _ _ _ hpre]
  rw [replaceAll_append_pat]
  rw [List.append_assoc]

theorem resolveFields_eq_map (fields : List (String × Json)) (ctx : Json) :
    resolveFields fields ctx =
      fields.map (fun kv => (kv.1, resolveParameters kv.2 ctx)) := by
  induction fields with
  | nil => rfl
  | cons kv rest ih =>
    obtain ⟨k, v⟩ := kv
    simp [resolveFields, ih]

theorem resolveElems_eq_map (elems : List Json) (ctx : Json) :
    resolveElems elems ctx = elems.map (resolveParameters · ctx) := by
  induction elems with
  | nil => rfl
  | cons v rest ih => simp [resolveElems, ih]

/-- A `${missing}` placeholder is left unchanged by substitution against
any context that has no entry for the key `missing`. -/
theorem missing_placeholder_unchanged (ctx : List (String × Json))
    (h : ∀ kv ∈ ctx, kv.1 ≠ "missing") :
    substitutePlaceholders "$\x7bmissing\x7d" (.obj ctx) = "$\x7bmissing\x7d" := by
  have hph : ("$\x7bmissing\x7d" : String) = placeholderFor "missing" := by decide
  rw [hph]
  apply substitutePlaceholders_of_no_occurrence
  intro kv hkv rep hrep
  exact placeholder_not_contains kv.1 "missing" (by decide) (h kv hkv)

/-- C1.  Pipeline parameter resolution is purely textual and touches only
JSON string leaves: strings go through placeholder substitution (each
`${key}` occurrence replaced by the context value), object keys, arrays'
structure and non-string leaves (numbers, booleans, null) pass through
unchanged; a `prefix-${A}-suffix` parameter with `A ↦ X` resolves to
exactly `prefix-X-suffix`, preserving embedded whitespace and newlines
of the substituted value, and matching is case-sensitive. -/
theorem claim_C1_textual_substitution_on_string_leaves :
    (∀ (ctx : Json) (s : String),
      resolveParameters (.str s) ctx = .str (substitutePlaceholders s ctx))
  ∧ (∀ (ctx : Json) (fields : List (String × Json)),
      resolveParameters (.obj fields) ctx
        = .obj (fields.map (fun kv => (kv.1, resolveParameters kv.2 ctx))))
  ∧ (∀ (ctx : Json) (elems : List Json),
      resolveParameters (.arr elems) ctx
        = .arr (elems.map (resolveParameters · ctx)))
  ∧ (∀ ctx : Json, resolveParameters .null ctx = .null)
  ∧ (∀ (ctx : Json) (b : Bool), resolveParameters (.bool b) ctx = .bool b)
  ∧ (∀ (ctx : Json) (n : Int), resolveParameters (.num n) ctx = .num n)
  ∧ (∀ k v pre suf : String, (∀ c ∈ pre.data, c ≠ '$') →
      substitutePlaceholders (pre ++ placeholderFor k ++ suf)
          (.obj [(k, .str v)])
        = pre ++ v ++ strReplace suf (placeholderFor k) v)
  ∧ substitutePlaceholders "prefix-$\x7bA\x7d-suffix"
      (.obj [("A", .str "X out\n")]) = "prefix-X out\n-suffix"
  ∧ substitutePlaceholders "prefix-$\x7ba\x7d-suffix"
      (.obj [("A", .str "X")]) = "prefix-$\x7ba\x7d-suffix" := by
  refine ⟨fun ctx s => rfl, ?_, ?_, fun ctx => rfl, fun ctx b => rfl,
    fun ctx n => rfl, ?_, ?_, ?_⟩
  · intro ctx fields
    rw [show resolveParameters (.obj fields) ctx = .obj (resolveFields fields ctx)
      from rfl, resolveFields_eq_map]
  · intro ctx elems
    rw [show resolveParameters (.arr elems) ctx = .arr (resolveElems elems ctx)
      from rfl, resolveElems_eq_map]
  · exact fun k v pre suf hpre => substitutePlaceholders_single k v pre suf hpre
  · have h1 : ("prefix-$\x7bA\x7d-suffix" : String)
        = "prefix-" ++ placeholderFor "A" ++ "-suffix" := by decide
    rw [h1, substitutePlaceholders_single _ _ _ _ (by decide)]
    rw [strReplace_eq_self _ _ _ (placeholderFor_data_ne_nil _) (by decide)]
    decide
  · apply substitutePlaceholders_of_no_occurrence
    intro kv hkv rep hrep
    simp only [List.mem_singleton] at hkv
    subst hkv
    decide

theorem claim_C1_textual_substitution_on_string_leaves_witness :
    substitutePlaceholders ("pre " ++ placeholderFor "A" ++ " post")
        (.obj [("A", Json.str "hello\nworld")])
      = "pre " ++ "hello\nworld" ++ strReplace " post" (placeholderFor "A") "hello\nworld" :=
  claim_C1_textual_substitution_on_string_leaves.2.2.2.2.2.2.1
    "A" "hello\nworld" "pre " " post" (by decide)

/-- C2.  A placeholder whose step id is absent from the pipeline context
is left in place as literal text: the parameter `"${missing}"` resolves
to itself and is handed verbatim to the invoked tool by the step loop. -/
theorem claim_C2_unresolved_placeholder_left_verbatim :
    (∀ ctx : List (String × Json), (∀ kv ∈ ctx, kv.1 ≠ "missing") →
      substitutePlaceholders "$\x7bmissing\x7d" (.obj ctx) = "$\x7bmissing\x7d")
  ∧ (∀ (exec : String → Json → Except AppError String)
      (stepId toolName : String) (ctx : List (String × Json)),
      (∀ kv ∈ ctx, kv.1 ≠ "missing") →
      invokedCalls exec [⟨stepId, toolName, .str "$\x7bmissing\x7d"⟩] ctx
        = [(toolName, Json.str "$\x7bmissing\x7d")]) := by
  refine ⟨missing_placeholder_unchanged, ?_⟩
  intro exec stepId toolName ctx h
  have hres : resolveParameters (Json.str "$\x7bmissing\x7d") (.obj ctx)
      = Json.str "$\x7bmissing\x7d" := by
    show Json.str (substitutePlaceholders "$\x7bmissing\x7d" (.obj ctx))
      = Json.str "$\x7bmissing\x7d"
    rw [missing_placeholder_unchanged ctx h]
  simp only [invokedCalls, hres]
  cases exec toolName (Json.str "$\x7bmissing\x7d") <;> rfl

theorem claim_C2_unresolved_placeholder_left_verbatim_witness :
    substitutePlaceholders "$\x7bmissing\x7d"
        (.obj [("other", Json.str "zzz")]) = "$\x7bmissing\x7d"
  ∧ invokedCalls (fun _ _ => .ok "out")
        [⟨"s1", "shell_tool", .str "$\x7bmissing\x7d"⟩]
        [("other", Json.str "zzz")]
      = [("shell_tool", Json.str "$\x7bmissing\x7d")] :=
  ⟨claim_C2_unresolved_placeholder_left_verbatim.1 _ (by decide),
   claim_C2_unresolved_placeholder_left_verbatim.2 _ "s1" "shell_tool" _ (by decide)⟩

theorem mapLookup_mapInsert_self (k : String) (v : Json)
    (l : List (String × Json)) : mapLookup k (mapInsert k v l) = some v := by
  induction l with
  | nil => simp [mapInsert, mapLookup]
  | cons kv rest ih =>
    rw [mapInsert]
    by_cases h1 : k = kv.1
    · rw [if_pos h1, mapLookup, if_pos rfl]
    · rw [if_neg h1]
      by_cases h2 : k < kv.1
      · rw [if_pos h2, mapLookup, if_pos rfl]
      · rw [if_neg h2, mapLookup, if_neg (fun he => h1 he.symm), ih]

theorem mapLookup_mapInsert_ne (k k' : String) (v : Json)
    (l : List (String × Json)) (h : k' ≠ k) :
    mapLookup k' (mapInsert k v l) = mapLookup k' l := by
  have hkk : ¬(k = k') := fun he => h he.symm
  induction l with
  | nil => simp [mapInsert, mapLookup, hkk]
  | cons kv rest ih =>
    rw [mapInsert]
    by_cases h1 : k = kv.1
    · rw [if_pos h1, mapLookup, if_neg hkk, mapLookup,
        if_neg (fun he => hkk (h1.trans he))]
    · rw [if_neg h1]
      by_cases h2 : k < kv.1
      · rw [if_pos h2, mapLookup, if_neg hkk]
      · rw [if_neg h2]
        simp only [mapLookup, ih]

theorem mem_mapInsert (k : String) (v : Json) (l : List (String × Json))
    (kv : String × Json) (h : kv ∈ mapInsert k v l) : kv = (k, v) ∨ kv ∈ l := by
  induction l with
  | nil => simpa [mapInsert] using h
  | cons kv0 rest ih =>
    rw [mapInsert] at h
    by_cases h1 : k = kv0.1
    · rw [if_pos h1] at h
      rcases List.mem_cons.mp h with h | h
      · exact Or.inl h
      · exact Or.inr (List.mem_cons_of_mem _ h)
    · rw [if_neg h1] at h
      by_cases h2 : k < kv0.1
      · rw [if_pos h2] at h
        rcases List.mem_cons.mp h with h | h
        · exact Or.inl h
        · exact Or.inr h
      · rw [if_neg h2] at h
        rcases List.mem_cons.mp h with h | h
        · exact Or.inr (h ▸ List.mem_cons_self _ _)
        · rcases ih h with h | h
          · exact Or.inl h
          · exact Or.inr (List.mem_cons_of_mem _ h)

theorem mapLookup_isSome_mapInsert (k k' : String) (v : Json)
    (l : List (String × Json)) (h : (mapLookup k l).isSome) :
    (mapLookup k (mapInsert k' v l)).isSome := by
  by_cases he : k = k'
  · subst he
    rw [mapLookup_mapInsert_self]
    rfl
  · rw [mapLookup_mapInsert_ne k' k v l he]
    exact h

theorem runSteps_append (exec : String → Json → Except AppError String)
    (pre post : List PipelineStep) (ctx : List (String × Json)) :
    runSteps exec (pre ++ post) ctx =
      match runSteps exec pre ctx with
      | .ok c => runSteps exec post c
      | .error e => .error e := by
  induction pre generalizing ctx with
  | nil => rfl
  | cons s rest ih =>
    simp only [List.cons_append, runSteps]
    cases exec s.tool (resolveParameters s.parameters (.obj ctx)) with
    | error e => rfl
    | ok out => exact ih _

theorem invokedCalls_append (exec : String → Json → Except AppError String)
    (pre post : List PipelineStep) (ctx ctx' : List (String × Json))
    (h : runSteps exec pre ctx = .ok ctx') :
    invokedCalls exec (pre ++ post) ctx =
      invokedCalls exec pre ctx ++ invokedCalls exec post ctx' := by
  induction pre generalizing ctx with
  | nil =>
    injection h with h
    subst h
    rfl
  | cons s rest ih =>
    rw [runSteps] at h
    simp only [List.cons_append, invokedCalls]
    cases hE : exec s.tool (resolveParameters s.parameters (.obj ctx)) with
    | error e =>
      rw [hE] at h
      exact absurd h (by simp)
    | ok out =>
      rw [hE] at h
      simp only [List.cons_append]
      exact congrArg (List.cons _) (ih _ h)

/-- Invariant of a successful step loop run: every binding of the final
context either was already present or records some step's id with a
string value; the id of every executed step is bound; existing bindings
stay bound. -/
theorem runSteps_ok_shape (exec : String → Json → Except AppError String)
    (steps : List PipelineStep) (ctx ctxF : List (String × Json))
    (h : runSteps exec steps ctx = .ok ctxF) :
    (∀ kv ∈ ctxF, kv ∈ ctx ∨
      ((∃ step ∈ steps, step.id = kv.1) ∧ ∃ out, kv.2 = Json.str out))
    ∧ (∀ step ∈ steps, (mapLookup step.id ctxF).isSome)
    ∧ (∀ k, (mapLookup k ctx).isSome → (mapLookup k ctxF).isSome) := by
  induction steps generalizing ctx with
  | nil =>
    injection h with h
    subst h
    exact ⟨fun kv hkv => Or.inl hkv, by simp, fun k hk => hk⟩
  | cons s rest ih =>
    rw [runSteps] at h
    cases hE : exec s.tool (resolveParameters s.parameters (.obj ctx)) with
    | error e =>
      rw [hE] at h
      exact absurd h (by simp)
    | ok out =>
      rw [hE] at h
      obtain ⟨h1, h2, h3⟩ := ih _ h
      refine ⟨?_, ?_, ?_⟩
      · intro kv hkv
        rcases h1 kv hkv with hin | hnew
        · rcases mem_mapInsert _ _ _ _ hin with rfl | hin
          · exact Or.inr ⟨⟨s, List.mem_cons_self _ _, rfl⟩, out, rfl⟩
          · exact Or.inl hin
        · obtain ⟨⟨st, hst, hid⟩, hout⟩ := hnew
          exact Or.inr ⟨⟨st, List.mem_cons_of_mem _ hst, hid⟩, hout⟩
      · intro st hst
        rcases List.mem_cons.mp hst with rfl | hst
        · refine h3 _ ?_
          rw [mapLookup_mapInsert_self]
          rfl
        · exact h2 st hst
      · intro k hk
        exact h3 k (mapLookup_isSome_mapInsert _ _ _ _ hk)

/-- Steps whose ids avoid `k` do not disturb the binding of `k`. -/
theorem runSteps_ok_lookup_const (exec : String → Json → Except AppError String)
    (post : List PipelineStep) (c ctxF : List (String × Json)) (k : String)
    (hk : k ∉ post.map (·.id)) (h : runSteps exec post c = .ok ctxF) :
    mapLookup k ctxF = mapLookup k c := by
  induction post generalizing c with
  | nil =>
    injection h with h
    subst h
    rfl
  | cons s rest ih =>
    rw [runSteps] at h
    cases hE : exec s.tool (resolveParameters s.parameters (.obj c)) with
    | error e =>
      rw [hE] at h
      exact absurd h (by simp)
    | ok out =>
      rw [hE] at h
      have hk' : k ∉ rest.map (·.id) := fun hx => hk (by simp [hx])
      rw [ih _ hk' h, mapLookup_mapInsert_ne _ _ _ _ (fun he => hk (by simp [he]))]

/-- C3.  The pipeline interpreter is fail-fast and all-or-nothing: when a
step's registry execution errors, the whole run returns exactly that error,
no later step is invoked, and no partial context escapes (the `.error`
result carries none); when every step succeeds the run returns one JSON
object whose bindings all record step ids with string outputs, every step
id is bound, and an id unshadowed by later steps is bound to precisely its
step's registry output. -/
theorem claim_C3_pipeline_fail_fast_all_or_nothing :
    (∀ (exec : String → Json → Except AppError String)
        (pre : List PipelineStep) (s : PipelineStep) (post : List PipelineStep)
        (ctx' : List (String × Json)) (e : AppError),
      runSteps exec pre [] = .ok ctx' →
      exec s.tool (resolveParameters s.parameters (.obj ctx')) = .error e →
      pipelineExecute exec (pre ++ s :: post) = .error e ∧
      invokedCalls exec (pre ++ s :: post) []
        = invokedCalls exec pre []
            ++ [(s.tool, resolveParameters s.parameters (.obj ctx'))])
  ∧ (∀ (exec : String → Json → Except AppError String)
        (steps : List PipelineStep) (ctxF : List (String × Json)),
      runSteps exec steps [] = .ok ctxF →
      pipelineExecute exec steps = .ok (.obj ctxF)
      ∧ (∀ kv ∈ ctxF, (∃ step ∈ steps, step.id = kv.1) ∧ ∃ out, kv.2 = Json.str out)
      ∧ (∀ step ∈ steps, (mapLookup step.id ctxF).isSome))
  ∧ (∀ (exec : String → Json → Except AppError String)
        (pre : List PipelineStep) (s : PipelineStep) (post : List PipelineStep)
        (ctx0 ctxF : List (String × Json)) (out : String),
      runSteps exec pre [] = .ok ctx0 →
      exec s.tool (resolveParameters s.parameters (.obj ctx0)) = .ok out →
      runSteps exec (pre ++ s :: post) [] = .ok ctxF →
      s.id ∉ post.map (·.id) →
      mapLookup s.id ctxF = some (.str out)) := by
  refine ⟨?_, ?_, ?_⟩
  · intro exec pre s post ctx' e hpre hs
    constructor
    · have hrun : runSteps exec (pre ++ s :: post) [] = .error e := by
        rw [runSteps_append, hpre]
        show runSteps exec (s :: post) ctx' = .error e
        rw [runSteps, hs]
      rw [pipelineExecute, hrun]
    · rw [invokedCalls_append exec pre (s :: post) [] ctx' hpre]
      congr 1
      show (s.tool, resolveParameters s.parameters (.obj ctx')) ::
          (match exec s.tool (resolveParameters s.parameters (.obj ctx')) with
           | .error _ => []
           | .ok out => invokedCalls exec post (mapInsert s.id (.str out) ctx'))
        = [(s.tool, resolveParameters s.parameters (.obj ctx'))]
      rw [hs]
  · intro exec steps ctxF h
    obtain ⟨h1, h2, -⟩ := runSteps_ok_shape exec steps [] ctxF h
    refine ⟨by rw [pipelineExecute, h], ?_, h2⟩
    intro kv hkv
    rcases h1 kv hkv with hin | hnew
    · simp at hin
    · exact hnew
  · intro exec pre s post ctx0 ctxF out hpre hs hall hnin
    have hall' : runSteps exec (s :: post) ctx0 = .ok ctxF := by
      rw [runSteps_append, hpre] at hall
      exact hall
    have hall'' : runSteps exec post (mapInsert s.id (.str out) ctx0) = .ok ctxF := by
      rw [runSteps, hs] at hall'
      exact hall'
    rw [runSteps_ok_lookup_const exec post _ ctxF s.id hnin hall'',
      mapLookup_mapInsert_self]

/-- A two-outcome registry dispatch used to exercise the pipeline
interpreter theorems on concrete runs. -/
def execForPipelineChecks : String → Json → Except AppError String :=
  fun toolName _ =>
    if toolName = "boom" then .error (.CommandError "kaput") else .ok "out"

theorem claim_C3_pipeline_fail_fast_all_or_nothing_witness :
    pipelineExecute execForPipelineChecks
        [⟨"s1", "boom", Json.null⟩, ⟨"s2", "good", Json.null⟩]
      = .error (.CommandError "kaput")
  ∧ pipelineExecute execForPipelineChecks [⟨"a", "good", Json.null⟩]
      = .ok (.obj [("a", Json.str "out")])
  ∧ mapLookup "a" [("a", Json.str "out")] = some (Json.str "out") :=
  ⟨(claim_C3_pipeline_fail_fast_all_or_nothing.1 execForPipelineChecks []
      ⟨"s1", "boom", Json.null⟩ [⟨"s2", "good", Json.null⟩] [] (.CommandError "kaput")
      rfl rfl).1,
   (claim_C3_pipeline_fail_fast_all_or_nothing.2.1 execForPipelineChecks
      [⟨"a", "good", Json.null⟩] [("a", Json.str "out")] rfl).1,
   claim_C3_pipeline_fail_fast_all_or_nothing.2.2 execForPipelineChecks []
      ⟨"a", "good", Json.null⟩ [] [] [("a", Json.str "out")] "out"
      rfl rfl rfl (by simp)⟩

theorem regLookup_hmInsert_self (k : String) (t : ToolDef)
    (l : List (String × ToolDef)) : regLookup k (hmInsert k t l) = some t := by
  induction l with
  | nil => simp [hmInsert, regLookup]
  | cons kv rest ih =>
    rw [hmInsert]
    by_cases h1 : kv.1 = k
    · rw [if_pos h1, regLookup, if_pos rfl]
    · rw [if_neg h1, regLookup, if_neg h1, ih]

theorem regLookup_hmInsert_ne (k n : String) (t : ToolDef)
    (l : List (String × ToolDef)) (h : n ≠ k) :
    regLookup n (hmInsert k t l) = regLookup n l := by
  have hkn : ¬(k = n) := fun he => h he.symm
  induction l with
  | nil => simp [hmInsert, regLookup, hkn]
  | cons kv rest ih =>
    rw [hmInsert]
    by_cases h1 : kv.1 = k
    · rw [if_pos h1, regLookup, if_neg hkn, regLookup, if_neg (h1 ▸ hkn)]
    · rw [if_neg h1]
      simp only [regLookup, ih]

theorem mem_keys_hmInsert (k : String) (t : ToolDef)
    (l : List (String × ToolDef)) (x : String)
    (h : x ∈ (hmInsert k t l).map (·.1)) : x = k ∨ x ∈ l.map (·.1) := by
  induction l with
  | nil => simpa [hmInsert] using h
  | cons kv rest ih =>
    rw [hmInsert] at h
    by_cases h1 : kv.1 = k
    · rw [if_pos h1, List.map_cons] at h
      rcases List.mem_cons.mp h with h | h
      · exact Or.inl h
      · exact Or.inr (by simp [h])
    · rw [if_neg h1, List.map_cons] at h
      rcases List.mem_cons.mp h with h | h
      · exact Or.inr (by simp [h])
      · rcases ih h with h | h
        · exact Or.inl h
        · exact Or.inr (by simp [h])

theorem nodup_keys_hmInsert (k : String) (t : ToolDef)
    (l : List (String × ToolDef)) (h : List.Nodup (l.map (·.1))) :
    List.Nodup ((hmInsert k t l).map (·.1)) := by
  induction l with
  | nil => simp [hmInsert]
  | cons kv rest ih =>
    rw [List.map_cons, List.nodup_cons] at h
    rw [hmInsert]
    by_cases h1 : kv.1 = k
    · rw [if_pos h1, List.map_cons, List.nodup_cons]
      exact ⟨h1 ▸ h.1, h.2⟩
    · rw [if_neg h1, List.map_cons, List.nodup_cons]
      refine ⟨?_, ih h.2⟩
      intro hx
      rcases mem_keys_hmInsert k t rest kv.1 hx with hx | hx
      · exact h1 hx
      · exact h.1 hx

/-- C4.  Executing an unregistered name always yields the
`` Tool `name` not found `` error, and no tool's execute operation is ever
consulted: the outcome is unchanged when every registered tool's execute
operation is replaced by an arbitrary other one. -/
theorem claim_C4_unregistered_name_tool_not_found :
    (∀ (reg : List (String × ToolDef)) (toolName : String) (args : Json),
      regLookup toolName reg = none →
      executeTool reg toolName args
        = .error (.CommandError ("Tool `" ++ toolName ++ "` not found")))
  ∧ (∀ (reg : List (String × ToolDef)) (toolName : String) (args : Json)
        (g : String → ToolDef → Json → Except AppError String),
      regLookup toolName reg = none →
      executeTool
          (reg.map (fun kv => (kv.1, { kv.2 with execute := g kv.1 kv.2 })))
          toolName args
        = executeTool reg toolName args) := by
  have hmap : ∀ (reg : List (String × ToolDef)) (toolName : String)
      (g : String → ToolDef → Json → Except AppError String),
      regLookup toolName reg = none →
      regLookup toolName
        (reg.map (fun kv => (kv.1, { kv.2 with execute := g kv.1 kv.2 }))) = none := by
    intro reg toolName g h
    induction reg with
    | nil => rfl
    | cons kv rest ih =>
      rw [regLookup] at h
      by_cases h1 : kv.1 = toolName
      · rw [if_pos h1] at h
        exact absurd h (by simp)
      · rw [if_neg h1] at h
        rw [List.map_cons, regLookup, if_neg h1]
        exact ih h
  have hbase : ∀ (reg : List (String × ToolDef)) (toolName : String) (args : Json),
      regLookup toolName reg = none →
      executeTool reg toolName args
        = .error (.CommandError ("Tool `" ++ toolName ++ "` not found")) := by
    intro reg toolName args h
    rw [executeTool, h]
  refine ⟨hbase, ?_⟩
  intro reg toolName args g h
  rw [hbase _ _ args (hmap reg toolName g h), hbase _ _ args h]

theorem claim_C4_unregistered_name_tool_not_found_witness :
    executeTool [] "nope" Json.null
      = .error (.CommandError ("Tool `" ++ "nope" ++ "` not found"))
  ∧ executeTool
        (([] : List (String × ToolDef)).map
          (fun kv => (kv.1, { kv.2 with execute := fun _ => .ok "x" })))
        "nope" Json.null
      = executeTool [] "nope" Json.null :=
  ⟨claim_C4_unregistered_name_tool_not_found.1 [] "nope" Json.null rfl,
   claim_C4_unregistered_name_tool_not_found.2 [] "nope" Json.null
     (fun _ _ _ => .ok "x") rfl⟩

/-- C10.  `register` silently overwrites on name collision: after
registering `t`, looking up `t.name` yields exactly `t` (whether or not
the name was already bound, and in particular a second registration under
the same name yields the second tool), other names are untouched, and the
name keys stay unique. -/
theorem claim_C10_register_overwrites_and_keeps_names_unique :
    (∀ (t : ToolDef) (reg : List (String × ToolDef)),
      regLookup t.name (registerTool t reg) = some t)
  ∧ (∀ (t t' : ToolDef) (reg : List (String × ToolDef)), t'.name = t.name →
      regLookup t.name (registerTool t' (registerTool t reg)) = some t')
  ∧ (∀ (t : ToolDef) (reg : List (String × ToolDef)) (n : String),
      n ≠ t.name → regLookup n (registerTool t reg) = regLookup n reg)
  ∧ (∀ (t : ToolDef) (reg : List (String × ToolDef)),
      List.Nodup (reg.map (·.1)) →
      List.Nodup ((registerTool t reg).map (·.1))) := by
  refine ⟨?_, ?_, ?_, ?_⟩
  · intro t reg
    exact regLookup_hmInsert_self t.name t reg
  · intro t t' reg hname
    rw [← hname]
    exact regLookup_hmInsert_self t'.name t' _
  · intro t reg n hn
    exact regLookup_hmInsert_ne t.name n t reg hn
  · intro t reg h
    exact nodup_keys_hmInsert t.name t reg h

theorem claim_C10_register_overwrites_and_keeps_names_unique_witness :
    regLookup "shell_tool"
        (registerTool ⟨"shell_tool", "v2", Json.null, fun _ => .ok "2"⟩
          (registerTool ⟨"shell_tool", "v1", Json.null, fun _ => .ok "1"⟩ []))
      = some ⟨"shell_tool", "v2", Json.null, fun _ => .ok "2"⟩
  ∧ regLookup "other"
        (registerTool ⟨"shell_tool", "v1", Json.null, fun _ => .ok "1"⟩ [])
      = regLookup "other" []
  ∧ List.Nodup
      ((registerTool ⟨"shell_tool", "v1", Json.null, fun _ => .ok "1"⟩ []).map (·.1)) :=
  ⟨claim_C10_register_overwrites_and_keeps_names_unique.2.1
     ⟨"shell_tool", "v1", Json.null, fun _ => .ok "1"⟩
     ⟨"shell_tool", "v2", Json.null, fun _ => .ok "2"⟩ [] rfl,
   claim_C10_register_overwrites_and_keeps_names_unique.2.2.1
     ⟨"shell_tool", "v1", Json.null, fun _ => .ok "1"⟩ [] "other" (by decide),
   claim_C10_register_overwrites_and_keeps_names_unique.2.2.2
     ⟨"shell_tool", "v1", Json.null, fun _ => .ok "1"⟩ [] (by simp)⟩

/-- Handling a list of tool calls whose argument texts all parse appends
exactly one tool-role message per call, in order, each carrying that
call's id and function name. -/
theorem handleToolCalls_append_messages (reg : List (String × ToolDef))
    (items : List (ToolCall × Bool × Except AppError Json)) (msgs : List Message)
    (hall : ∀ item ∈ items, ∃ a : Json, item.2.2 = .ok a) :
    ∃ appended : List Message,
      handleToolCalls reg items msgs = .ok (msgs ++ appended)
      ∧ appended.length = items.length
      ∧ (∀ (i : Nat) (hi : i < appended.length) (hi' : i < items.length),
          (appended.get ⟨i, hi⟩).role = "tool"
          ∧ (appended.get ⟨i, hi⟩).tool_call_id = some ((items.get ⟨i, hi'⟩).1.id)
          ∧ (appended.get ⟨i, hi⟩).name
              = some ((items.get ⟨i, hi'⟩).1.function.name)) := by
  induction items generalizing msgs with
  | nil =>
    refine ⟨[], by simp [handleToolCalls], rfl, ?_⟩
    intro i hi hi'
    simp at hi
  | cons item rest ih =>
    obtain ⟨tc, appr, pargs⟩ := item
    obtain ⟨a, ha⟩ := hall (tc, appr, pargs) (List.mem_cons_self _ _)
    simp only at ha
    subst ha
    have hstep : handleToolCalls reg ((tc, appr, .ok a) :: rest) msgs
        = handleToolCalls reg rest (msgs ++
            [{ role := "tool",
               content := some (if appr then
                   match executeTool reg tc.function.name a with
                   | .ok result => result
                   | .error e => e.toDisplayString
                 else "User rejected tool call: " ++ rustDebugToolCall tc),
               tool_calls := none, tool_call_id := some tc.id,
               name := some tc.function.name }]) := rfl
    obtain ⟨app', h1, h2, h3⟩ :=
      ih (msgs ++
            [{ role := "tool",
               content := some (if appr then
                   match executeTool reg tc.function.name a with
                   | .ok result => result
                   | .error e => e.toDisplayString
                 else "User rejected tool call: " ++ rustDebugToolCall tc),
               tool_calls := none, tool_call_id := some tc.id,
               name := some tc.function.name }])
        (fun it hit => hall it (List.mem_cons_of_mem _ hit))
    refine ⟨{ role := "tool",
              content := some (if appr then
                  match executeTool reg tc.function.name a with
                  | .ok result => result
                  | .error e => e.toDisplayString
                else "User rejected tool call: " ++ rustDebugToolCall tc),
              tool_calls := none, tool_call_id := some tc.id,
              name := some tc.function.name } :: app', ?_, by simp [h2], ?_⟩
    · rw [hstep, h1, List.append_assoc, List.singleton_append]
    · intro i hi hi'
      cases i with
      | zero => exact ⟨rfl, rfl, rfl⟩
      | succ n =>
        simp only [List.length_cons, Nat.succ_lt_succ_iff] at hi hi'
        exact h3 n hi hi'

/-- C5 (as stated) is falsified at two concrete rejected calls: the
rejection text embeds the `{:?}` rendering of the call, so two different
rejected calls receive different tool-result contents — there is no one
fixed rejection text. -/
theorem claim_C5_fixed_rejection_text_counterexample :
    handleToolCall [] false ⟨"call-1", "function", ⟨"shell_tool", "null"⟩⟩
        (.ok Json.null) []
      = .ok [{ role := "tool",
               content := some "User rejected tool call: ToolCall \x7b id: \"call-1\", type: \"function\", function: FunctionCall \x7b name: \"shell_tool\", arguments: \"null\" \x7d \x7d",
               tool_calls := none, tool_call_id := some "call-1",
               name := some "shell_tool" }]
  ∧ handleToolCall [] false ⟨"call-2", "function", ⟨"shell_tool", "null"⟩⟩
        (.ok Json.null) []
      = .ok [{ role := "tool",
               content := some "User rejected tool call: ToolCall \x7b id: \"call-2\", type: \"function\", function: FunctionCall \x7b name: \"shell_tool\", arguments: \"null\" \x7d \x7d",
               tool_calls := none, tool_call_id := some "call-2",
               name := some "shell_tool" }]
  ∧ ("User rejected tool call: ToolCall \x7b id: \"call-1\", type: \"function\", function: FunctionCall \x7b name: \"shell_tool\", arguments: \"null\" \x7d \x7d" : String)
      ≠ "User rejected tool call: ToolCall \x7b id: \"call-2\", type: \"function\", function: FunctionCall \x7b name: \"shell_tool\", arguments: \"null\" \x7d \x7d" := by
  exact ⟨rfl, rfl, by decide⟩

/-- C5 (amended).  A rejected tool call is never executed — the outcome
is independent of the registry and of the parsed arguments, so no tool's
execute operation can influence it — and exactly one tool-role message is
appended carrying the rejected call's `tool_call_id` and a rejection text
of fixed shape: the fixed prefix `User rejected tool call: ` followed by
the call's debug rendering. -/
theorem claim_C5_rejected_call_not_executed :
    (∀ (reg : List (String × ToolDef)) (tc : ToolCall) (args : Json)
        (msgs : List Message),
      handleToolCall reg false tc (.ok args) msgs
        = .ok (msgs ++
            [{ role := "tool",
               content := some ("User rejected tool call: " ++ rustDebugToolCall tc),
               tool_calls := none, tool_call_id := some tc.id,
               name := some tc.function.name }]))
  ∧ (∀ (reg reg' : List (String × ToolDef)) (tc : ToolCall) (args args' : Json)
        (msgs : List Message),
      handleToolCall reg false tc (.ok args) msgs
        = handleToolCall reg' false tc (.ok args') msgs) :=
  ⟨fun _ _ _ _ => rfl, fun _ _ _ _ _ _ => rfl⟩

/-- C6.  A tool-level failure during an approved call — the name not
found, or an error from the tool itself — never aborts the loop: the
handler still returns `.ok`, appending one tool-role message whose
content is the `Display` rendering of the error; consequently a whole
tool-call phase in which every argument text parses finishes with `.ok`
and the loop proceeds to the follow-up completion request. -/
theorem claim_C6_tool_failure_is_local :
    (∀ (reg : List (String × ToolDef)) (tc : ToolCall) (args : Json)
        (msgs : List Message) (e : AppError),
      executeTool reg tc.function.name args = .error e →
      handleToolCall reg true tc (.ok args) msgs
        = .ok (msgs ++
            [{ role := "tool",
               content := some e.toDisplayString,
               tool_calls := none, tool_call_id := some tc.id,
               name := some tc.function.name }]))
  ∧ (∀ (reg : List (String × ToolDef))
        (items : List (ToolCall × Bool × Except AppError Json))
        (msgs : List Message),
      (∀ item ∈ items, ∃ a : Json, item.2.2 = .ok a) →
      ∃ msgs', handleToolCalls reg items msgs = .ok msgs') := by
  constructor
  · intro reg tc args msgs e h
    simp [handleToolCall, h]
  · intro reg items msgs hall
    obtain ⟨appended, h1, -, -⟩ := handleToolCalls_append_messages reg items msgs hall
    exact ⟨msgs ++ appended, h1⟩

theorem claim_C6_tool_failure_is_local_witness :
    handleToolCall [] true ⟨"call-9", "function", ⟨"gone_tool", "null"⟩⟩
        (.ok Json.null) []
      = .ok [{ role := "tool",
               content := some (AppError.CommandError
                 ("Tool `" ++ "gone_tool" ++ "` not found")).toDisplayString,
               tool_calls := none, tool_call_id := some "call-9",
               name := some "gone_tool" }]
  ∧ ∃ msgs', handleToolCalls []
      [(⟨"call-9", "function", ⟨"gone_tool", "null"⟩⟩, true, .ok Json.null)] []
      = .ok msgs' :=
  ⟨claim_C6_tool_failure_is_local.1 [] ⟨"call-9", "function", ⟨"gone_tool", "null"⟩⟩
     Json.null [] (.CommandError ("Tool `" ++ "gone_tool" ++ "` not found")) rfl,
   claim_C6_tool_failure_is_local.2 []
     [(⟨"call-9", "function", ⟨"gone_tool", "null"⟩⟩, true, .ok Json.null)] []
     (by intro item hit
         simp only [List.mem_singleton] at hit
         subst hit
         exact ⟨Json.null, rfl⟩)⟩

/-- C7.  Within one assistant turn whose tool calls all carry parseable
argument text, the handler answers each call, before the follow-up
completion request, with exactly one tool-role message whose
`tool_call_id` is that call's id (and whose `name` is the call's function
name), appended strictly in the order the calls were returned. -/
theorem claim_C7_one_tool_message_per_call_in_order :
    ∀ (reg : List (String × ToolDef))
      (items : List (ToolCall × Bool × Except AppError Json))
      (msgs : List Message),
      (∀ item ∈ items, ∃ a : Json, item.2.2 = .ok a) →
      ∃ appended : List Message,
        handleToolCalls reg items msgs = .ok (msgs ++ appended)
        ∧ appended.length = items.length
        ∧ (∀ (i : Nat) (hi : i < appended.length) (hi' : i < items.length),
            (appended.get ⟨i, hi⟩).role = "tool"
            ∧ (appended.get ⟨i, hi⟩).tool_call_id = some ((items.get ⟨i, hi'⟩).1.id)
            ∧ (appended.get ⟨i, hi⟩).name
                = some ((items.get ⟨i, hi'⟩).1.function.name)) :=
  fun reg items msgs hall => handleToolCalls_append_messages reg items msgs hall

/-- A concrete two-call turn (one approved, one rejected) used to
exercise the tool-call ordering theorem. -/
def twoCallTurn : List (ToolCall × Bool × Except AppError Json) :=
  [(⟨"id-a", "function", ⟨"t1", "null"⟩⟩, true, .ok Json.null),
   (⟨"id-b", "function", ⟨"t2", "null"⟩⟩, false, .ok Json.null)]

theorem claim_C7_one_tool_message_per_call_in_order_witness :
    ∃ appended : List Message,
      handleToolCalls [] twoCallTurn [] = .ok ([] ++ appended)
      ∧ appended.length = twoCallTurn.length
      ∧ (∀ (i : Nat) (hi : i < appended.length) (hi' : i < twoCallTurn.length),
          (appended.get ⟨i, hi⟩).role = "tool"
          ∧ (appended.get ⟨i, hi⟩).tool_call_id
              = some ((twoCallTurn.get ⟨i, hi'⟩).1.id)
          ∧ (appended.get ⟨i, hi⟩).name
              = some ((twoCallTurn.get ⟨i, hi'⟩).1.function.name)) :=
  claim_C7_one_tool_message_per_call_in_order [] twoCallTurn []
    (by intro item hit
        rcases List.mem_cons.mp hit with rfl | hit
        · exact ⟨Json.null, rfl⟩
        · simp only [twoCallTurn, List.mem_singleton] at hit
          subst hit
          exact ⟨Json.null, rfl⟩)

theorem functionCallFromJson_toJson (fc : FunctionCall) :
    functionCallFromJson (functionCallToJson fc) = some fc := by
  cases fc
  rfl

theorem toolCallFromJson_toJson (tc : ToolCall) :
    toolCallFromJson (toolCallToJson tc) = some tc := by
  obtain ⟨i, t, fc⟩ := tc
  cases fc
  rfl

theorem jsonListDecode_toolCalls (l : List ToolCall) :
    jsonListDecode toolCallFromJson (l.map toolCallToJson) = some l := by
  induction l with
  | nil => rfl
  | cons tc rest ih =>
    rw [List.map_cons, jsonListDecode, toolCallFromJson_toJson, ih]

/-- serde round trip for one `Message`: deserializing its serialization
restores the message exactly (absent optional fields come back as
`None`). -/
theorem messageFromJson_toJson (m : Message) :
    messageFromJson (messageToJson m) = some m := by
  obtain ⟨role, content, tcs, tcid, nm⟩ := m
  rcases content with _ | c <;> rcases tcs with _ | tcs <;>
    rcases tcid with _ | i <;> rcases nm with _ | n <;>
    simp [messageToJson, messageFromJson, mapLookup, optStrField,
      jsonListDecode_toolCalls]

theorem messagesFromJson_toJson (msgs : List Message) :
    messagesFromJson (messagesToJson msgs) = some msgs := by
  rw [messagesToJson, messagesFromJson]
  induction msgs with
  | nil => rfl
  | cons m rest ih =>
    rw [List.map_cons, jsonListDecode, messageFromJson_toJson, ih]

/-- C8.  After appending a message `M` to a conversation, the persisted
file of that conversation holds the serialization of the whole new
message list (full rewrite), and parsing it back yields a message list
whose last element is exactly `M`. -/
theorem claim_C8_persisted_conversation_reload_ends_with_message :
    ∀ (cm : ConvState) (fs : String → Option Json) (m : Message),
      (addMessage cm fs m).2 (conversationPath cm.conversation_id)
          = some (messagesToJson (cm.messages ++ [m]))
      ∧ loadConversation (addMessage cm fs m).2 cm.conversation_id
          = .ok { messages := cm.messages ++ [m],
                  conversation_id := cm.conversation_id }
      ∧ (cm.messages ++ [m]).getLast? = some m := by
  intro cm fs m
  refine ⟨by simp [addMessage], ?_, List.getLast?_concat _⟩
  rw [loadConversation]
  simp [addMessage, messagesFromJson_toJson]

theorem load_input_not_exit (id : String) :
    eqIgnoreAsciiCase ("load " ++ id) "exit" = false := by
  rw [eqIgnoreAsciiCase, beq_eq_false_iff_ne]
  intro h
  rw [String.data_append, List.map_append,
    show List.map asciiLowerChar "load ".data = ['l', 'o', 'a', 'd', ' '] from rfl,
    show List.map asciiLowerChar "exit".data = ['e', 'x', 'i', 't'] from rfl] at h
  obtain ⟨h1, -⟩ := List.cons.inj h
  exact absurd h1 (by decide)

theorem load_input_not_quit (id : String) :
    eqIgnoreAsciiCase ("load " ++ id) "quit" = false := by
  rw [eqIgnoreAsciiCase, beq_eq_false_iff_ne]
  intro h
  rw [String.data_append, List.map_append,
    show List.map asciiLowerChar "load ".data = ['l', 'o', 'a', 'd', ' '] from rfl,
    show List.map asciiLowerChar "quit".data = ['q', 'u', 'i', 't'] from rfl] at h
  obtain ⟨h1, -⟩ := List.cons.inj h
  exact absurd h1 (by decide)

theorem load_input_not_list_tools (id : String) :
    eqIgnoreAsciiCase ("load " ++ id) "list tools" = false := by
  rw [eqIgnoreAsciiCase, beq_eq_false_iff_ne]
  intro h
  rw [String.data_append, List.map_append,
    show List.map asciiLowerChar "load ".data = ['l', 'o', 'a', 'd', ' '] from rfl,
    show List.map asciiLowerChar "list tools".data
      = ['l', 'i', 's', 't', ' ', 't', 'o', 'o', 'l', 's'] from rfl] at h
  obtain ⟨-, h⟩ := List.cons.inj h
  obtain ⟨h2, -⟩ := List.cons.inj h
  exact absurd h2 (by decide)

theorem load_data_append (id : String) :
    ("load " ++ id).data = 'l' :: 'o' :: 'a' :: 'd' :: ' ' :: id.data := by
  rw [String.data_append, show "load ".data = ['l', 'o', 'a', 'd', ' '] from rfl]
  simp

theorem load_input_lower_starts_with_load (id : String) :
    ['l', 'o', 'a', 'd'].isPrefixOf
      (List.map asciiLowerChar ("load " ++ id).data) = true := by
  rw [load_data_append]
  simp [List.isPrefixOf, asciiLowerChar]

theorem splitnTwoAtSpace_load (id : String) :
    splitnTwoAtSpace ("load " ++ id).data = [['l', 'o', 'a', 'd'], id.data] := by
  rw [load_data_append, splitnTwoAtSpace]
  rw [show List.takeWhile (fun c => !(c == ' '))
      ('l' :: 'o' :: 'a' :: 'd' :: ' ' :: id.data) = ['l', 'o', 'a', 'd'] from rfl]
  rw [if_neg (by simp)]
  rfl

/-- An input of the form `load <id>` (already in trimmed form) parses as
a load command carrying everything after the first space. -/
theorem readUserCommand_load (id : String)
    (htrim : trimString ("load " ++ id) = "load " ++ id) :
    readUserCommand ("load " ++ id) = .ok (.loadConversation id) := by
  simp only [readUserCommand, htrim, load_input_not_exit, load_input_not_quit,
    load_input_not_list_tools, load_input_lower_starts_with_load,
    splitnTwoAtSpace_load, Bool.or_self, Bool.false_eq_true, if_false, if_true]

/-- C9 (as stated) is falsified at a concrete input: `loading the data`
matches neither control form of the claim (`exit`/`quit`, `list tools`,
`load <id>`), yet it does not become a user message — the handler parses
it as a load command with id `the data` (because any input whose
lowercase form starts with `load` is split at the first space), and with
no such persisted conversation the loop ends in the propagated load error
rather than in a prompt. -/
theorem claim_C9_load_prefixed_input_counterexample :
    readUserCommand "loading the data" = .ok (Command.loadConversation "the data")
  ∧ Command.loadConversation "the data" ≠ Command.prompt "loading the data"
  ∧ (getUserPrompt [] ["loading the data"] ⟨[], "filler"⟩ (fun _ => none)).1
      = PromptOutcome.fatal (.IOError "No such file or directory (os error 2)") :=
  ⟨rfl, by decide, rfl⟩

/-- C9 (amended).  At the awaiting-user-input state: `exit`/`quit`
terminate without touching the conversation; `list tools` prints the
registry description and continues without adding a message; an input of
the form `load <id>` — in fact any input whose lowercased form starts
with `load` and contains a space — is a control input that replaces the
in-memory conversation with the persisted one named by the text after the
first space; a bare `load`-prefixed input without a space is a parse
error that re-prompts without adding a message; and every input matching
none of these shapes becomes a new user message (returning the loop to
the completion-request state). -/
theorem claim_C9_control_inputs_and_prompt_fallback :
    (∀ (reg : List (String × ToolDef)) (lines : List String) (cm : ConvState)
        (fs : String → Option Json),
      getUserPrompt reg ("exit" :: lines) cm fs = (.exited, [])
      ∧ getUserPrompt reg ("quit" :: lines) cm fs = (.exited, []))
  ∧ (∀ (reg : List (String × ToolDef)) (lines : List String) (cm : ConvState)
        (fs : String → Option Json),
      getUserPrompt reg ("list tools" :: lines) cm fs
        = ((getUserPrompt reg lines cm fs).1,
           listToolsDescription reg :: (getUserPrompt reg lines cm fs).2))
  ∧ (∀ id : String, trimString ("load " ++ id) = "load " ++ id →
      readUserCommand ("load " ++ id) = .ok (.loadConversation id))
  ∧ (∀ (reg : List (String × ToolDef)) (lines : List String) (cm cm' : ConvState)
        (fs : String → Option Json) (id : String),
      trimString ("load " ++ id) = "load " ++ id →
      loadConversation fs id = .ok cm' →
      getUserPrompt reg (("load " ++ id) :: lines) cm fs
        = ((getUserPrompt reg lines cm' fs).1,
           ("Successfully loaded conversation " ++ id ++ "\n")
             :: (getUserPrompt reg lines cm' fs).2))
  ∧ (∀ (reg : List (String × ToolDef)) (lines : List String) (cm : ConvState)
        (fs : String → Option Json),
      getUserPrompt reg ("load" :: lines) cm fs = getUserPrompt reg lines cm fs)
  ∧ (∀ line : String,
      eqIgnoreAsciiCase (trimString line) "exit" = false →
      eqIgnoreAsciiCase (trimString line) "quit" = false →
      eqIgnoreAsciiCase (trimString line) "list tools" = false →
      "load".data.isPrefixOf ((trimString line).data.map asciiLowerChar) = false →
      readUserCommand line = .ok (.prompt (trimString line))
      ∧ ∀ (reg : List (String × ToolDef)) (lines : List String) (cm : ConvState)
          (fs : String → Option Json),
          getUserPrompt reg (line :: lines) cm fs
            = (.prompted
                 (addMessage cm fs (Message.new "user" (trimString line))).1
                 (addMessage cm fs (Message.new "user" (trimString line))).2,
               [])) := by
  refine ⟨fun reg lines cm fs => ⟨rfl, rfl⟩, fun reg lines cm fs => rfl,
    readUserCommand_load, ?_, fun reg lines cm fs => rfl, ?_⟩
  · intro reg lines cm cm' fs id htrim hload
    simp only [getUserPrompt, readUserCommand_load id htrim, hload]
  · intro line h1 h2 h3 h4
    have hcmd : readUserCommand line = .ok (.prompt (trimString line)) := by
      simp [readUserCommand, h1, h2, h3, h4]
    refine ⟨hcmd, ?_⟩
    intro reg lines cm fs
    simp only [getUserPrompt, hcmd]

/-- A file store holding one persisted (empty) conversation `conv42`. -/
def fsWithConv42 : String → Option Json :=
  fun path =>
    if path = conversationPath "conv42" then some (messagesToJson []) else none

theorem claim_C9_control_inputs_and_prompt_fallback_witness :
    readUserCommand ("load " ++ "conv42") = .ok (.loadConversation "conv42")
  ∧ getUserPrompt [] [("load " ++ "conv42")] ⟨[], "filler"⟩ fsWithConv42
      = ((getUserPrompt [] [] ⟨[], "conv42"⟩ fsWithConv42).1,
         ("Successfully loaded conversation " ++ "conv42" ++ "\n")
           :: (getUserPrompt [] [] ⟨[], "conv42"⟩ fsWithConv42).2)
  ∧ readUserCommand "hello world" = .ok (.prompt (trimString "hello world")) :=
  ⟨claim_C9_control_inputs_and_prompt_fallback.2.2.1 "conv42" (by decide),
   claim_C9_control_inputs_and_prompt_fallback.2.2.2.1 [] [] ⟨[], "filler"⟩
     ⟨[], "conv42"⟩ fsWithConv42 "conv42" (by decide) rfl,
   (claim_C9_control_inputs_and_prompt_fallback.2.2.2.2.2 "hello world"
     (by decide) (by decide) (by decide) (by decide)).1⟩
